import Mathlib

/-!
Verification of the `mouse-size-alloc` tracking allocator (`src/lib.rs`).

The crate wraps the system allocator: every `alloc` / `alloc_zeroed` /
`realloc` / `dealloc` call is delegated to `std::alloc`, and an
`AtomicUsize` counter (`SizeAllocator.size`) is adjusted by the *usable*
size of the affected block, as reported by the foreign
`malloc_usable_size` query.

Embedding:
* Pointers are natural numbers; `0` is the null pointer.
* The delegate allocator's state is a `Heap`: an association list from
  live pointers to the usable sizes the delegate chose for them.  The
  delegate is nondeterministic, so each operation takes the delegate's
  response (returned pointer and chosen usable size) as explicit
  arguments; a `valid` predicate states the delegate/caller contract
  (fresh non-null pointers, usable size at least the requested size,
  live pointers for `realloc`/`dealloc`).
* The `AtomicUsize` counter is a `Nat` reduced modulo `2 ^ 64`;
  `fetch_add` / `fetch_sub` wrap, exactly as in Rust.
* `malloc_usable_size` follows its documented contract in `src/lib.rs`:
  the usable size of a live block, and `0` for the null pointer.
-/

/-- Word size of `usize` / `AtomicUsize` on the 64-bit targets the crate
is built for. -/
def W : Nat := 2 ^ 64

/-- `AtomicUsize::fetch_add`: wrapping addition modulo `2 ^ 64`
(returning the new value of the counter). -/
def fetchAdd (c n : Nat) : Nat := (c + n) % W

/-- `AtomicUsize::fetch_sub`: wrapping subtraction modulo `2 ^ 64`
(returning the new value of the counter). -/
def fetchSub (c n : Nat) : Nat := (c + (W - n % W)) % W

/-- `core::alloc::Layout`: a (size, alignment) pair. -/
structure Layout where
  size : Nat
  align : Nat
deriving DecidableEq, Repr

/-- Lookup in an association list keyed by pointers. -/
def lookupKey (p : Nat) : List (Nat × Nat) → Option Nat
  | [] => none
  | b :: l => if b.1 = p then some b.2 else lookupKey p l

/-- Remove every binding of pointer `p` from an association list. -/
def removeKey (p : Nat) : List (Nat × Nat) → List (Nat × Nat)
  | [] => []
  | b :: l => if b.1 = p then removeKey p l else b :: removeKey p l

/-- The keys (pointers) bound by an association list. -/
def keysOf (l : List (Nat × Nat)) : List Nat := l.map Prod.fst

/-- The sum of the values (usable sizes) bound by an association list. -/
def sumVals (l : List (Nat × Nat)) : Nat := (l.map Prod.snd).sum

/-- The delegate allocator's state: the usable size the delegate
reserved for each currently live block, keyed by the block's address. -/
structure Heap where
  blocks : List (Nat × Nat)
deriving DecidableEq, Repr

/-- Usable size recorded for a live block, if any. -/
def Heap.lookup (h : Heap) (p : Nat) : Option Nat := lookupKey p h.blocks

/-- Whether `p` is a currently live block of the delegate. -/
def Heap.isLive (h : Heap) (p : Nat) : Bool := (h.lookup p).isSome

/-- Usable size of a live block (`0` when `p` is not live). -/
def Heap.usable (h : Heap) (p : Nat) : Nat := (h.lookup p).getD 0

/-- The delegate frees block `p`. -/
def Heap.remove (h : Heap) (p : Nat) : Heap := ⟨removeKey p h.blocks⟩

/-- The delegate creates (or replaces) the block at `p` with usable
size `u`. -/
def Heap.insert (h : Heap) (p u : Nat) : Heap := ⟨(p, u) :: removeKey p h.blocks⟩

/-- Total number of usable bytes of all currently live blocks. -/
def Heap.total (h : Heap) : Nat := sumVals h.blocks

/-- Each live pointer is bound at most once. -/
def Heap.KeysNodup (h : Heap) : Prop := (keysOf h.blocks).Nodup

/-- The foreign `malloc_usable_size` (declared in `src/lib.rs`): returns
the usable size of a live block; per its documented contract it always
returns `0` for the null pointer. -/
def malloc_usable_size (h : Heap) (p : Nat) : Nat :=
  if p = 0 then 0 else h.usable p

/-- `allocating_size` (`src/lib.rs`): returns the usable size of a heap
block by calling `malloc_usable_size`.  (The `debug_assert` on the
non-null precondition compiles to nothing in release builds and does not
affect the returned value.) -/
def allocating_size (h : Heap) (p : Nat) : Nat := malloc_usable_size h p

/-- Effect of `std::alloc::alloc` on the delegate's heap when it returns
pointer `p` (null = failure) with usable size `u`. -/
def delegateAlloc (h : Heap) (p u : Nat) : Heap :=
  if p ≠ 0 then h.insert p u else h

/-- Effect of `std::alloc::alloc_zeroed` on the delegate's heap: as
`delegateAlloc`; the zeroed memory contents are not observable in this
model. -/
def delegateAllocZeroed (h : Heap) (p u : Nat) : Heap :=
  if p ≠ 0 then h.insert p u else h

/-- Effect of `std::alloc::realloc` on the delegate's heap when it
returns pointer `p'` with usable size `u'`: on failure (`p' = 0`) the
original block is untouched; on success the old block is gone and the
(possibly identical) address `p'` now holds a block of usable size
`u'`. -/
def delegateRealloc (h : Heap) (p p' u' : Nat) : Heap :=
  if p' ≠ 0 then (h.remove p).insert p' u' else h

/-- Effect of `std::alloc::dealloc` on the delegate's heap. -/
def delegateDealloc (h : Heap) (p : Nat) : Heap := h.remove p

/-- The tracking allocator's state: the `AtomicUsize` counter of the
`SizeAllocator` struct together with the delegate allocator's heap. -/
structure State where
  counter : Nat
  heap : Heap
deriving DecidableEq, Repr

/-- `SizeAllocator::new` at process start: counter `0`, and no block
has been allocated yet. -/
def SizeAllocator.new : State := ⟨0, ⟨[]⟩⟩

/-- `SizeAllocator::alloc` (`src/lib.rs` lines 55-64): delegate to
`std::alloc::alloc`; if the returned pointer is non-null, `fetch_add`
the usable size of the returned block; return the delegate's pointer
unmodified.  `p` and `u` are the delegate's response. -/
def SizeAllocator.alloc (s : State) (layout : Layout) (p u : Nat) : State × Nat :=
  let h := delegateAlloc s.heap p u
  if p ≠ 0 then
    (⟨fetchAdd s.counter (allocating_size h p), h⟩, p)
  else
    (⟨s.counter, h⟩, p)

/-- `SizeAllocator::alloc_zeroed` (`src/lib.rs` lines 66-75): identical
to `alloc` except that the delegate is `std::alloc::alloc_zeroed`. -/
def SizeAllocator.alloc_zeroed (s : State) (layout : Layout) (p u : Nat) : State × Nat :=
  let h := delegateAllocZeroed s.heap p u
  if p ≠ 0 then
    (⟨fetchAdd s.counter (allocating_size h p), h⟩, p)
  else
    (⟨s.counter, h⟩, p)

/-- `SizeAllocator::realloc` (`src/lib.rs` lines 77-92): capture
`old_size = allocating_size(ptr)` before delegating; delegate to
`std::alloc::realloc`; if the returned pointer differs from the input
and is non-null, query the new block's usable size and `fetch_add` /
`fetch_sub` the difference; return the delegate's pointer unmodified.
`p'` and `u'` are the delegate's response. -/
def SizeAllocator.realloc (s : State) (p : Nat) (layout : Layout) (new_size : Nat)
    (p' u' : Nat) : State × Nat :=
  let old_size := allocating_size s.heap p
  let h := delegateRealloc s.heap p p' u'
  if p' ≠ p ∧ p' ≠ 0 then
    let ns := allocating_size h p'
    if old_size < ns then
      (⟨fetchAdd s.counter (ns - old_size), h⟩, p')
    else
      (⟨fetchSub s.counter (old_size - ns), h⟩, p')
  else
    (⟨s.counter, h⟩, p')

/-- `SizeAllocator::dealloc` (`src/lib.rs` lines 94-101): query the
usable size of the block, `fetch_sub` it from the counter, then delegate
the free to `std::alloc::dealloc`.  Total function: no return value and
no failure mode. -/
def SizeAllocator.dealloc (s : State) (p : Nat) (layout : Layout) : State :=
  let size := allocating_size s.heap p
  ⟨fetchSub s.counter size, delegateDealloc s.heap p⟩

/-- Modelled from the spec: the sources under `src/` define the atomic
counter field but no public read accessor for it; the spec describes
"a read accessor exposing the current counter value to the embedding
application (a plain atomic load)".  The accessor performs an atomic
load of the counter and leaves the state untouched. -/
def SizeAllocator.readCounter (s : State) : State × Nat := (s, s.counter)

/-- One allocator call together with the delegate's (nondeterministic)
response. -/
inductive Event where
  | alloc (layout : Layout) (p u : Nat)
  | allocZeroed (layout : Layout) (p u : Nat)
  | realloc (p : Nat) (layout : Layout) (newSize p' u' : Nat)
  | dealloc (p : Nat) (layout : Layout)
deriving DecidableEq, Repr

/-- State transition of one allocator call (the returned pointer is
dropped; only the allocator/heap state is threaded). -/
def step (s : State) : Event → State
  | .alloc layout p u => (SizeAllocator.alloc s layout p u).1
  | .allocZeroed layout p u => (SizeAllocator.alloc_zeroed s layout p u).1
  | .realloc p layout n p' u' => (SizeAllocator.realloc s p layout n p' u').1
  | .dealloc p layout => SizeAllocator.dealloc s p layout

/-- Caller preconditions and delegate contract for one call:
* `alloc` / `allocZeroed`: on success the delegate returns a fresh
  non-null pointer whose usable size is at least the requested size;
* `realloc`: the input pointer is a live non-null block; on success the
  new usable size is at least the requested new size and, if the block
  moved, the new address is fresh;
* `dealloc`: the input pointer is a live non-null block. -/
def Event.valid (s : State) : Event → Bool
  | .alloc layout p u =>
      p == 0 || (!(s.heap.isLive p) && decide (layout.size ≤ u))
  | .allocZeroed layout p u =>
      p == 0 || (!(s.heap.isLive p) && decide (layout.size ≤ u))
  | .realloc p _layout newSize p' u' =>
      p != 0 && s.heap.isLive p &&
        (p' == 0 || (decide (newSize ≤ u') && (p' == p || !(s.heap.isLive p'))))
  | .dealloc p _layout => p != 0 && s.heap.isLive p

/-- Run a sequence of calls. -/
def run (s : State) (es : List Event) : State := es.foldl step s

/-- Every call of the sequence is valid in the state it runs in. -/
def validFrom (s : State) : List Event → Bool
  | [] => true
  | e :: rest => e.valid s && validFrom (step s e) rest

/-- Whether the event is a `realloc` call. -/
def Event.isRealloc : Event → Bool
  | .realloc _ _ _ _ _ => true
  | _ => false

/-- The event is not an in-place `realloc` that changes the block's
usable size (the desynchronizing edge case of `src/lib.rs` lines
81-89). -/
def Event.inPlaceSafe (s : State) : Event → Bool
  | .realloc p _ _ p' u' => !(p' == p && p' != 0 && u' != allocating_size s.heap p)
  | _ => true

/-- No call of the sequence is an in-place usable-size-changing
`realloc`. -/
def noInPlaceChange (s : State) : List Event → Bool
  | [] => true
  | e :: rest => e.inPlaceSafe s && noInPlaceChange (step s e) rest

/-- The `fetch_sub` performed by this call (if any) does not exceed the
counter's current value, i.e. the unsigned counter does not wrap
below zero. -/
def stepNoUnderflow (s : State) : Event → Bool
  | .dealloc p _ => decide (allocating_size s.heap p ≤ s.counter)
  | .realloc p _ _ p' u' =>
      if p' ≠ p ∧ p' ≠ 0 then
        decide (allocating_size s.heap p
            < allocating_size (delegateRealloc s.heap p p' u') p') ||
        decide (allocating_size s.heap p
            - allocating_size (delegateRealloc s.heap p p' u') p' ≤ s.counter)
      else true
  | _ => true

/-- No call of the sequence makes the counter underflow. -/
def underflowFree (s : State) : List Event → Bool
  | [] => true
  | e :: rest => stepNoUnderflow s e && underflowFree (step s e) rest

/-- After every call of the sequence, the delegate's total usable bytes
fit in a machine word. -/
def totalsBounded (s : State) : List Event → Bool
  | [] => true
  | e :: rest => decide ((step s e).heap.total < W) && totalsBounded (step s e) rest

/-- Trace refuting non-negativity of the counter: allocate a block of
usable size 16, let the delegate grow it in place to usable size 128,
then free it; the free subtracts 128 from a counter holding 16. -/
def underflowTrace : List Event :=
  [Event.alloc ⟨10, 8⟩ 1 16,
   Event.realloc 1 ⟨10, 8⟩ 100 1 128,
   Event.dealloc 1 ⟨10, 8⟩]

/-! ### Association-list lemmas -/

theorem lookupKey_removeKey_self (p : Nat) (l : List (Nat × Nat)) :
    lookupKey p (removeKey p l) = none := by
  induction l with
  | nil => rfl
  | cons b l ih =>
    by_cases hb : b.1 = p
    · simpa [removeKey, hb] using ih
    · simpa [removeKey, lookupKey, hb] using ih

theorem lookupKey_removeKey_ne (p q : Nat) (l : List (Nat × Nat)) (hqp : q ≠ p) :
    lookupKey q (removeKey p l) = lookupKey q l := by
  induction l with
  | nil => rfl
  | cons b l ih =>
    by_cases hb : b.1 = p
    · have hbq : ¬ b.1 = q := fun h => hqp (by rw [← h]; exact hb)
      simp only [removeKey, if_pos hb, lookupKey, if_neg hbq]
      exact ih
    · simp only [removeKey, if_neg hb]
      by_cases hbq : b.1 = q
      · simp only [lookupKey, if_pos hbq]
      · simp only [lookupKey, if_neg hbq]
        exact ih

theorem lookupKey_none_iff (p : Nat) (l : List (Nat × Nat)) :
    lookupKey p l = none ↔ p ∉ keysOf l := by
  induction l with
  | nil => simp [lookupKey, keysOf]
  | cons b l ih =>
    by_cases hb : b.1 = p
    · simp [lookupKey, keysOf, hb]
    · simpa [lookupKey, keysOf, hb, Ne.symm hb] using ih

theorem removeKey_eq_self (p : Nat) (l : List (Nat × Nat)) (hp : p ∉ keysOf l) :
    removeKey p l = l := by
  induction l with
  | nil => rfl
  | cons b l ih =>
    simp only [keysOf, List.map_cons, List.mem_cons] at hp
    push_neg at hp
    have hb : b.1 ≠ p := fun h => hp.1 h.symm
    simp [removeKey, hb, ih hp.2]

theorem keysOf_removeKey_subset (p q : Nat) (l : List (Nat × Nat))
    (hq : q ∈ keysOf (removeKey p l)) : q ∈ keysOf l := by
  induction l with
  | nil => simpa [removeKey, keysOf] using hq
  | cons b l ih =>
    by_cases hb : b.1 = p
    · simp only [removeKey, if_pos hb] at hq
      exact List.mem_cons_of_mem _ (ih hq)
    · simp only [removeKey, if_neg hb, keysOf, List.map_cons, List.mem_cons] at hq ⊢
      rcases hq with hq1 | hq2
      · exact Or.inl hq1
      · exact Or.inr (ih hq2)

theorem keysOf_removeKey_nodup (p : Nat) (l : List (Nat × Nat))
    (hnd : (keysOf l).Nodup) : (keysOf (removeKey p l)).Nodup := by
  induction l with
  | nil => simp [removeKey, keysOf]
  | cons b l ih =>
    simp only [keysOf, List.map_cons, List.nodup_cons] at hnd
    by_cases hb : b.1 = p
    · simp only [removeKey, if_pos hb]
      exact ih hnd.2
    · simp only [removeKey, if_neg hb, keysOf, List.map_cons, List.nodup_cons]
      exact ⟨fun h => hnd.1 (keysOf_removeKey_subset p b.1 l h), ih hnd.2⟩

theorem sumVals_removeKey (p v : Nat) (l : List (Nat × Nat))
    (hnd : (keysOf l).Nodup) (hl : lookupKey p l = some v) :
    sumVals (removeKey p l) + v = sumVals l := by
  induction l with
  | nil => simp [lookupKey] at hl
  | cons b l ih =>
    simp only [keysOf, List.map_cons, List.nodup_cons] at hnd
    by_cases hb : b.1 = p
    · simp only [lookupKey, if_pos hb, Option.some.injEq] at hl
      have hnl : p ∉ keysOf l := hb ▸ hnd.1
      have hrl : removeKey p l = l := removeKey_eq_self p l hnl
      simp only [removeKey, if_pos hb, hrl, sumVals, List.map_cons, List.sum_cons]
      omega
    · simp only [lookupKey, if_neg hb] at hl
      have hs := ih hnd.2 hl
      simp only [removeKey, if_neg hb, sumVals, List.map_cons, List.sum_cons] at hs ⊢
      omega

/-! ### Heap-level lemmas -/

theorem Heap.lookup_insert (h : Heap) (p u : Nat) : (h.insert p u).lookup p = some u := by
  simp [Heap.insert, Heap.lookup, lookupKey]

theorem Heap.lookup_insert_ne (h : Heap) (p u q : Nat) (hqp : q ≠ p) :
    (h.insert p u).lookup q = h.lookup q := by
  have hpq : ¬ p = q := fun hh => hqp hh.symm
  simp only [Heap.insert, Heap.lookup, lookupKey, if_neg hpq]
  exact lookupKey_removeKey_ne p q h.blocks hqp

theorem Heap.lookup_remove_self (h : Heap) (p : Nat) : (h.remove p).lookup p = none :=
  lookupKey_removeKey_self p h.blocks

theorem Heap.lookup_remove_ne (h : Heap) (p q : Nat) (hqp : q ≠ p) :
    (h.remove p).lookup q = h.lookup q :=
  lookupKey_removeKey_ne p q h.blocks hqp

theorem Heap.remove_eq_self (h : Heap) (p : Nat) (hl : h.lookup p = none) :
    h.remove p = h := by
  have := (lookupKey_none_iff p h.blocks).mp hl
  simp only [Heap.remove, removeKey_eq_self p h.blocks this]

theorem Heap.total_insert (h : Heap) (p u : Nat) :
    (h.insert p u).total = u + (h.remove p).total := by
  simp [Heap.insert, Heap.remove, Heap.total, sumVals]

theorem Heap.total_insert_of_not_live (h : Heap) (p u : Nat)
    (hl : h.lookup p = none) : (h.insert p u).total = u + h.total := by
  rw [Heap.total_insert, Heap.remove_eq_self h p hl]

theorem Heap.total_remove (h : Heap) (p v : Nat) (hnd : h.KeysNodup)
    (hl : h.lookup p = some v) : (h.remove p).total + v = h.total :=
  sumVals_removeKey p v h.blocks hnd hl

theorem Heap.usable_le_total (h : Heap) (p v : Nat) (hnd : h.KeysNodup)
    (hl : h.lookup p = some v) : v ≤ h.total := by
  have := Heap.total_remove h p v hnd hl
  omega

theorem Heap.keysNodup_remove (h : Heap) (p : Nat) (hnd : h.KeysNodup) :
    (h.remove p).KeysNodup :=
  keysOf_removeKey_nodup p h.blocks hnd

theorem Heap.keysNodup_insert (h : Heap) (p u : Nat) (hnd : h.KeysNodup) :
    (h.insert p u).KeysNodup := by
  simp only [Heap.insert, Heap.KeysNodup, keysOf, List.map_cons, List.nodup_cons]
  constructor
  · intro hmem
    have hnone : lookupKey p (removeKey p h.blocks) = none :=
      lookupKey_removeKey_self p h.blocks
    exact (lookupKey_none_iff p (removeKey p h.blocks)).mp hnone hmem
  · exact keysOf_removeKey_nodup p h.blocks hnd

theorem Heap.isLive_iff_lookup (h : Heap) (p : Nat) :
    h.isLive p = true ↔ ∃ v, h.lookup p = some v := by
  simp [Heap.isLive, Option.isSome_iff_exists]

theorem Heap.not_isLive_iff_lookup (h : Heap) (p : Nat) :
    h.isLive p = false ↔ h.lookup p = none := by
  rw [Heap.isLive]
  cases h.lookup p <;> simp

theorem allocating_size_of_lookup (h : Heap) (p v : Nat) (hp : p ≠ 0)
    (hl : h.lookup p = some v) : allocating_size h p = v := by
  simp [allocating_size, malloc_usable_size, hp, Heap.usable, hl]

theorem allocating_size_insert (h : Heap) (p u : Nat) (hp : p ≠ 0) :
    allocating_size (h.insert p u) p = u :=
  allocating_size_of_lookup _ p u hp (Heap.lookup_insert h p u)

/-! ### Counter arithmetic lemmas -/

theorem W_pos : 0 < W := by norm_num [W]

theorem fetchAdd_lt (c n : Nat) : fetchAdd c n < W := Nat.mod_lt _ W_pos

theorem fetchSub_lt (c n : Nat) : fetchSub c n < W := Nat.mod_lt _ W_pos

theorem fetchAdd_eq_add (c n : Nat) (h : c + n < W) : fetchAdd c n = c + n :=
  Nat.mod_eq_of_lt h

theorem fetchSub_eq_sub (c n : Nat) (h1 : n ≤ c) (h2 : c < W) :
    fetchSub c n = c - n := by
  have hnW : n < W := lt_of_le_of_lt h1 h2
  have hn : n % W = n := Nat.mod_eq_of_lt hnW
  unfold fetchSub
  rw [hn]
  have he : c + (W - n) = (c - n) + W := by omega
  rw [he, Nat.add_mod_right]
  exact Nat.mod_eq_of_lt (by omega)

instance : NeZero W := ⟨by norm_num [W]⟩

theorem natCast_mod_W (a : Nat) : ((a % W : Nat) : ZMod W) = (a : ZMod W) := by
  conv_rhs => rw [← Nat.mod_add_div a W]
  push_cast
  rw [ZMod.natCast_self]
  ring

theorem fetchAdd_cast (c n : Nat) :
    ((fetchAdd c n : Nat) : ZMod W) = (c : ZMod W) + (n : ZMod W) := by
  unfold fetchAdd
  rw [natCast_mod_W]
  push_cast
  ring

theorem fetchSub_cast (c n : Nat) :
    ((fetchSub c n : Nat) : ZMod W) = (c : ZMod W) - (n : ZMod W) := by
  unfold fetchSub
  rw [natCast_mod_W]
  have h1 : n % W ≤ W := le_of_lt (Nat.mod_lt _ W_pos)
  push_cast [Nat.cast_sub h1]
  rw [ZMod.natCast_self, natCast_mod_W]
  ring

/-! ### Step-level invariants -/

theorem keysNodup_step (s : State) (e : Event) (hnd : s.heap.KeysNodup) :
    (step s e).heap.KeysNodup := by
  cases e with
  | alloc layout p u =>
    by_cases hp : p = 0
    · subst hp
      simpa [step, SizeAllocator.alloc, delegateAlloc] using hnd
    · simp only [step, SizeAllocator.alloc, delegateAlloc, if_pos hp]
      exact Heap.keysNodup_insert _ _ _ hnd
  | allocZeroed layout p u =>
    by_cases hp : p = 0
    · subst hp
      simpa [step, SizeAllocator.alloc_zeroed, delegateAllocZeroed] using hnd
    · simp only [step, SizeAllocator.alloc_zeroed, delegateAllocZeroed, if_pos hp]
      exact Heap.keysNodup_insert _ _ _ hnd
  | realloc p layout n p' u' =>
    by_cases hp' : p' = 0
    · subst hp'
      have hd : delegateRealloc s.heap p 0 u' = s.heap := by
        simp [delegateRealloc]
      simp only [step, SizeAllocator.realloc, hd]
      split <;> simpa using hnd
    · have hd : delegateRealloc s.heap p p' u' = (s.heap.remove p).insert p' u' := by
        simp [delegateRealloc, hp']
      have hnd' : ((s.heap.remove p).insert p' u').KeysNodup :=
        Heap.keysNodup_insert _ _ _ (Heap.keysNodup_remove _ _ hnd)
      simp only [step, SizeAllocator.realloc, hd]
      split
      · split <;> exact hnd'
      · exact hnd'
  | dealloc p layout =>
    simp only [step, SizeAllocator.dealloc, delegateDealloc]
    exact Heap.keysNodup_remove _ _ hnd

theorem counter_lt_step (s : State) (e : Event) (hc : s.counter < W) :
    (step s e).counter < W := by
  cases e with
  | alloc layout p u =>
    simp only [step, SizeAllocator.alloc]
    split
    · exact fetchAdd_lt _ _
    · exact hc
  | allocZeroed layout p u =>
    simp only [step, SizeAllocator.alloc_zeroed]
    split
    · exact fetchAdd_lt _ _
    · exact hc
  | realloc p layout n p' u' =>
    simp only [step, SizeAllocator.realloc]
    split
    · split
      · exact fetchAdd_lt _ _
      · exact fetchSub_lt _ _
    · exact hc
  | dealloc p layout =>
    simp only [step, SizeAllocator.dealloc]
    exact fetchSub_lt _ _

theorem counter_lt_run (es : List Event) (s : State) (hc : s.counter < W) :
    (run s es).counter < W := by
  induction es generalizing s with
  | nil => exact hc
  | cons e rest ih =>
    have hstep : run s (e :: rest) = run (step s e) rest := rfl
    rw [hstep]
    exact ih (step s e) (counter_lt_step s e hc)

theorem keysNodup_run (es : List Event) (s : State) (hnd : s.heap.KeysNodup) :
    (run s es).heap.KeysNodup := by
  induction es generalizing s with
  | nil => exact hnd
  | cons e rest ih =>
    have hstep : run s (e :: rest) = run (step s e) rest := rfl
    rw [hstep]
    exact ih (step s e) (keysNodup_step s e hnd)

theorem zmod_invariant_step (s : State) (e : Event)
    (hnd : s.heap.KeysNodup) (hv : e.valid s = true) (hnr : e.isRealloc = false) :
    ((step s e).counter : ZMod W) - ((step s e).heap.total : ZMod W)
      = (s.counter : ZMod W) - (s.heap.total : ZMod W) := by
  cases e with
  | alloc layout p u =>
    by_cases hp : p = 0
    · subst hp
      simp [step, SizeAllocator.alloc, delegateAlloc]
    · simp only [Event.valid, Bool.or_eq_true, beq_iff_eq, Bool.and_eq_true,
        Bool.not_eq_true', decide_eq_true_eq] at hv
      rcases hv with hv | hv
      · exact absurd hv hp
      have hnone : s.heap.lookup p = none :=
        (Heap.not_isLive_iff_lookup _ _).mp hv.1
      simp only [step, SizeAllocator.alloc, delegateAlloc, if_pos hp]
      rw [allocating_size_insert _ _ _ hp, fetchAdd_cast,
        Heap.total_insert_of_not_live _ _ _ hnone]
      push_cast
      ring
  | allocZeroed layout p u =>
    by_cases hp : p = 0
    · subst hp
      simp [step, SizeAllocator.alloc_zeroed, delegateAllocZeroed]
    · simp only [Event.valid, Bool.or_eq_true, beq_iff_eq, Bool.and_eq_true,
        Bool.not_eq_true', decide_eq_true_eq] at hv
      rcases hv with hv | hv
      · exact absurd hv hp
      have hnone : s.heap.lookup p = none :=
        (Heap.not_isLive_iff_lookup _ _).mp hv.1
      simp only [step, SizeAllocator.alloc_zeroed, delegateAllocZeroed, if_pos hp]
      rw [allocating_size_insert _ _ _ hp, fetchAdd_cast,
        Heap.total_insert_of_not_live _ _ _ hnone]
      push_cast
      ring
  | realloc p layout n p' u' =>
    simp [Event.isRealloc] at hnr
  | dealloc p layout =>
    simp only [Event.valid, Bool.and_eq_true, bne_iff_ne, ne_eq] at hv
    obtain ⟨hp, hlive⟩ := hv
    obtain ⟨v, hlk⟩ := (Heap.isLive_iff_lookup _ _).mp hlive
    have hsz : allocating_size s.heap p = v := allocating_size_of_lookup _ p v hp hlk
    have htr : (s.heap.remove p).total + v = s.heap.total :=
      Heap.total_remove _ p v hnd hlk
    have hcast : ((s.heap.remove p).total : ZMod W) + (v : ZMod W)
        = (s.heap.total : ZMod W) := by
      exact_mod_cast congrArg (fun x : Nat => (x : ZMod W)) htr
    simp only [step, SizeAllocator.dealloc, delegateDealloc]
    rw [hsz, fetchSub_cast, ← hcast]
    ring

theorem zmod_invariant_run (es : List Event) (s : State)
    (hnd : s.heap.KeysNodup) (hv : validFrom s es = true)
    (hnr : es.all (fun e => !e.isRealloc) = true) :
    ((run s es).counter : ZMod W) - ((run s es).heap.total : ZMod W)
      = (s.counter : ZMod W) - (s.heap.total : ZMod W) := by
  induction es generalizing s with
  | nil => rfl
  | cons e rest ih =>
    simp only [validFrom, Bool.and_eq_true] at hv
    simp only [List.all_cons, Bool.and_eq_true, Bool.not_eq_true'] at hnr
    have hstep : run s (e :: rest) = run (step s e) rest := rfl
    rw [hstep]
    have h1 := zmod_invariant_step s e hnd hv.1 hnr.1
    have h2 := ih (step s e) (keysNodup_step s e hnd) hv.2
      (by simp only [List.all_eq_true] at hnr ⊢; exact hnr.2)
    rw [h2, h1]

/-- Claim C6: for every sequence of successful `alloc` / `alloc_zeroed`
calls interleaved with `dealloc` calls on all resulting pointers
(formally: a valid `realloc`-free trace starting from an empty heap and
ending with an empty heap), the counter ends at exactly its value before
the sequence began. -/
theorem alloc_dealloc_conservation (c0 : Nat) (es : List Event)
    (hc : c0 < W)
    (hv : validFrom ⟨c0, ⟨[]⟩⟩ es = true)
    (hnr : es.all (fun e => !e.isRealloc) = true)
    (hend : (run ⟨c0, ⟨[]⟩⟩ es).heap.blocks = []) :
    (run ⟨c0, ⟨[]⟩⟩ es).counter = c0 := by
  have hnd : (Heap.mk []).KeysNodup := by
    simp [Heap.KeysNodup, keysOf]
  have hinv := zmod_invariant_run es ⟨c0, ⟨[]⟩⟩ hnd hv hnr
  have hend' : (run ⟨c0, ⟨[]⟩⟩ es).heap.total = 0 := by
    simp [Heap.total, sumVals, hend]
  have h0 : (Heap.mk [] : Heap).total = 0 := rfl
  rw [hend', h0] at hinv
  have hinv' : (((run ⟨c0, ⟨[]⟩⟩ es).counter : Nat) : ZMod W) = ((c0 : Nat) : ZMod W) := by
    simpa using hinv
  have hlt : (run ⟨c0, ⟨[]⟩⟩ es).counter < W := counter_lt_run es _ hc
  have := congrArg ZMod.val hinv'
  rwa [ZMod.val_cast_of_lt hlt, ZMod.val_cast_of_lt hc] at this

/-- Witness for C6 on a concrete trace: two allocations (one zeroed)
with usable sizes 16 and 8, then both blocks freed; the counter returns
to its initial value 5. -/
theorem alloc_dealloc_conservation_witness :
    validFrom ⟨5, ⟨[]⟩⟩
        [Event.alloc ⟨10, 8⟩ 1 16, Event.allocZeroed ⟨4, 4⟩ 2 8,
         Event.dealloc 1 ⟨10, 8⟩, Event.dealloc 2 ⟨4, 4⟩] = true ∧
    (run ⟨5, ⟨[]⟩⟩
        [Event.alloc ⟨10, 8⟩ 1 16, Event.allocZeroed ⟨4, 4⟩ 2 8,
         Event.dealloc 1 ⟨10, 8⟩, Event.dealloc 2 ⟨4, 4⟩]).counter = 5 :=
  ⟨by decide,
   alloc_dealloc_conservation 5
     [Event.alloc ⟨10, 8⟩ 1 16, Event.allocZeroed ⟨4, 4⟩ 2 8,
      Event.dealloc 1 ⟨10, 8⟩, Event.dealloc 2 ⟨4, 4⟩]
     (by decide) (by decide) (by decide) (by decide)⟩

theorem sync_step (s : State) (e : Event)
    (hnd : s.heap.KeysNodup)
    (hv : e.valid s = true)
    (hip : e.inPlaceSafe s = true)
    (hbs : s.heap.total < W)
    (hb : (step s e).heap.total < W)
    (hsync : s.counter = s.heap.total) :
    (step s e).counter = (step s e).heap.total ∧ stepNoUnderflow s e = true := by
  cases e with
  | alloc layout p u =>
    refine ⟨?_, rfl⟩
    by_cases hp : p = 0
    · subst hp
      simpa [step, SizeAllocator.alloc, delegateAlloc] using hsync
    · simp only [Event.valid, Bool.or_eq_true, beq_iff_eq, Bool.and_eq_true,
        Bool.not_eq_true', decide_eq_true_eq] at hv
      rcases hv with hv | hv
      · exact absurd hv hp
      have hnone : s.heap.lookup p = none :=
        (Heap.not_isLive_iff_lookup _ _).mp hv.1
      have htot : (s.heap.insert p u).total = u + s.heap.total :=
        Heap.total_insert_of_not_live _ _ _ hnone
      simp only [step, SizeAllocator.alloc, delegateAlloc, if_pos hp] at hb ⊢
      rw [allocating_size_insert _ _ _ hp]
      rw [htot] at hb ⊢
      rw [hsync, fetchAdd_eq_add _ _ (by omega)]
      omega
  | allocZeroed layout p u =>
    refine ⟨?_, rfl⟩
    by_cases hp : p = 0
    · subst hp
      simpa [step, SizeAllocator.alloc_zeroed, delegateAllocZeroed] using hsync
    · simp only [Event.valid, Bool.or_eq_true, beq_iff_eq, Bool.and_eq_true,
        Bool.not_eq_true', decide_eq_true_eq] at hv
      rcases hv with hv | hv
      · exact absurd hv hp
      have hnone : s.heap.lookup p = none :=
        (Heap.not_isLive_iff_lookup _ _).mp hv.1
      have htot : (s.heap.insert p u).total = u + s.heap.total :=
        Heap.total_insert_of_not_live _ _ _ hnone
      simp only [step, SizeAllocator.alloc_zeroed, delegateAllocZeroed, if_pos hp] at hb ⊢
      rw [allocating_size_insert _ _ _ hp]
      rw [htot] at hb ⊢
      rw [hsync, fetchAdd_eq_add _ _ (by omega)]
      omega
  | realloc p layout n p' u' =>
    simp only [Event.valid, Bool.and_eq_true, bne_iff_ne, ne_eq, Bool.or_eq_true,
      beq_iff_eq, decide_eq_true_eq, Bool.not_eq_true'] at hv
    obtain ⟨⟨hp, hlive⟩, hrest⟩ := hv
    obtain ⟨v, hlk⟩ := (Heap.isLive_iff_lookup _ _).mp hlive
    have hsz : allocating_size s.heap p = v := allocating_size_of_lookup _ p v hp hlk
    have htr : (s.heap.remove p).total + v = s.heap.total :=
      Heap.total_remove _ p v hnd hlk
    by_cases hp0 : p' = 0
    · subst hp0
      have hd : delegateRealloc s.heap p 0 u' = s.heap := by
        simp [delegateRealloc]
      have hcond : ¬ ((0 : Nat) ≠ p ∧ (0 : Nat) ≠ 0) := fun h => h.2 rfl
      constructor
      · simp only [step, SizeAllocator.realloc, hd, if_neg hcond]
        exact hsync
      · simp only [stepNoUnderflow, if_neg hcond]
    · have hd : delegateRealloc s.heap p p' u' = (s.heap.remove p).insert p' u' := by
        simp [delegateRealloc, hp0]
      by_cases hpp : p' = p
      · subst hpp
        have hueq : u' = allocating_size s.heap p' := by
          simp only [Event.inPlaceSafe, beq_self_eq_true, Bool.true_and,
            Bool.not_eq_true', Bool.and_eq_false_iff] at hip
          rcases hip with hip | hip
          · exact absurd (bne_eq_false_iff_eq.mp hip) hp0
          · exact bne_eq_false_iff_eq.mp hip
        have hcond : ¬ (p' ≠ p' ∧ p' ≠ 0) := fun h => h.1 rfl
        have hrm : (s.heap.remove p').remove p' = s.heap.remove p' :=
          Heap.remove_eq_self _ _ (Heap.lookup_remove_self _ _)
        have htot : ((s.heap.remove p').insert p' u').total = u' + (s.heap.remove p').total := by
          rw [Heap.total_insert, hrm]
        have hveq : u' = v := hueq.trans hsz
        constructor
        · simp only [step, SizeAllocator.realloc, hd, if_neg hcond]
          rw [hveq] at htot ⊢
          rw [htot, hsync]
          omega
        · simp only [stepNoUnderflow, if_neg hcond]
      · have hcond : p' ≠ p ∧ p' ≠ 0 := ⟨hpp, hp0⟩
        have hnl : s.heap.lookup p' = none := by
          rcases hrest with h0 | ⟨_, hpl | hnl⟩
          · exact absurd h0 hp0
          · exact absurd hpl hpp
          · exact (Heap.not_isLive_iff_lookup _ _).mp hnl
        have hnew : allocating_size ((s.heap.remove p).insert p' u') p' = u' :=
          allocating_size_insert _ _ _ hp0
        have hrm : (s.heap.remove p).remove p' = s.heap.remove p :=
          Heap.remove_eq_self _ _ (by
            rw [Heap.lookup_remove_ne _ _ _ hpp]
            exact hnl)
        have htot : ((s.heap.remove p).insert p' u').total
            = u' + (s.heap.remove p).total := by
          rw [Heap.total_insert, hrm]
        have hvle : v ≤ s.heap.total := Heap.usable_le_total _ p v hnd hlk
        have hstep : step s (Event.realloc p layout n p' u')
            = if v < u'
              then ⟨fetchAdd s.counter (u' - v), (s.heap.remove p).insert p' u'⟩
              else ⟨fetchSub s.counter (v - u'), (s.heap.remove p).insert p' u'⟩ := by
          simp only [step, SizeAllocator.realloc, hd, if_pos hcond, hnew, hsz]
          split <;> rfl
        have hb' : u' + (s.heap.remove p).total < W := by
          rw [hstep, apply_ite State.heap, ite_self] at hb
          rwa [htot] at hb
        constructor
        · rw [hstep]
          by_cases hvu : v < u'
          · rw [if_pos hvu]
            show fetchAdd s.counter (u' - v) = ((s.heap.remove p).insert p' u').total
            rw [htot, hsync, fetchAdd_eq_add _ _ (by omega)]
            omega
          · rw [if_neg hvu]
            show fetchSub s.counter (v - u') = ((s.heap.remove p).insert p' u').total
            rw [htot, hsync, fetchSub_eq_sub _ _ (by omega) (by omega)]
            omega
        · simp only [stepNoUnderflow, if_pos hcond, hd, hnew, hsz, Bool.or_eq_true,
            decide_eq_true_eq]
          by_cases hvu : v < u'
          · exact Or.inl hvu
          · exact Or.inr (by rw [hsync]; omega)
  | dealloc p layout =>
    simp only [Event.valid, Bool.and_eq_true, bne_iff_ne, ne_eq] at hv
    obtain ⟨hp, hlive⟩ := hv
    obtain ⟨v, hlk⟩ := (Heap.isLive_iff_lookup _ _).mp hlive
    have hsz : allocating_size s.heap p = v := allocating_size_of_lookup _ p v hp hlk
    have htr : (s.heap.remove p).total + v = s.heap.total :=
      Heap.total_remove _ p v hnd hlk
    constructor
    · simp only [step, SizeAllocator.dealloc, delegateDealloc, hsz]
      rw [hsync, fetchSub_eq_sub _ _ (by omega) (by omega)]
      omega
    · simp only [stepNoUnderflow, hsz, decide_eq_true_eq]
      rw [hsync]
      omega

theorem sync_run (es : List Event) (s : State)
    (hnd : s.heap.KeysNodup) (hbs : s.heap.total < W)
    (hsync : s.counter = s.heap.total)
    (hv : validFrom s es = true)
    (hip : noInPlaceChange s es = true)
    (hb : totalsBounded s es = true) :
    underflowFree s es = true ∧ (run s es).counter = (run s es).heap.total := by
  induction es generalizing s with
  | nil => exact ⟨rfl, hsync⟩
  | cons e rest ih =>
    simp only [validFrom, Bool.and_eq_true] at hv
    simp only [noInPlaceChange, Bool.and_eq_true] at hip
    simp only [totalsBounded, Bool.and_eq_true, decide_eq_true_eq] at hb
    have hs := sync_step s e hnd hv.1 hip.1 hbs hb.1 hsync
    have hrest := ih (step s e) (keysNodup_step s e hnd) hb.1 hs.1 hv.2 hip.2 hb.2
    refine ⟨?_, hrest.2⟩
    simp only [underflowFree, Bool.and_eq_true]
    exact ⟨hs.2, hrest.1⟩

/-- Claim C7 (amended): for every valid sequence of operations from the
initial counter value 0 in which no `realloc` resizes a block in place
with a changed usable size, and in which the total usable bytes of live
blocks stay below `2 ^ 64`, no counter subtraction ever exceeds the
counter's current value (the unsigned counter never underflows), and the
counter always equals the sum of usable sizes of live blocks (hence is
non-negative).  As literally stated the claim is false: see the
counterexample on `underflowTrace`. -/
theorem counter_no_underflow (es : List Event)
    (hv : validFrom SizeAllocator.new es = true)
    (hip : noInPlaceChange SizeAllocator.new es = true)
    (hb : totalsBounded SizeAllocator.new es = true) :
    underflowFree SizeAllocator.new es = true ∧
    (run SizeAllocator.new es).counter = (run SizeAllocator.new es).heap.total :=
  sync_run es SizeAllocator.new
    (by simp [SizeAllocator.new, Heap.KeysNodup, keysOf])
    (by norm_num [SizeAllocator.new, Heap.total, sumVals, W])
    rfl hv hip hb

/-- Witness for C7 (amended) on a concrete trace: allocate (usable 16),
move-realloc to usable 32, free; every subtraction stays within the
counter. -/
theorem counter_no_underflow_witness :
    validFrom SizeAllocator.new
        [Event.alloc ⟨8, 8⟩ 1 16, Event.realloc 1 ⟨8, 8⟩ 32 2 32,
         Event.dealloc 2 ⟨32, 8⟩] = true ∧
    underflowFree SizeAllocator.new
        [Event.alloc ⟨8, 8⟩ 1 16, Event.realloc 1 ⟨8, 8⟩ 32 2 32,
         Event.dealloc 2 ⟨32, 8⟩] = true :=
  ⟨by decide,
   (counter_no_underflow
     [Event.alloc ⟨8, 8⟩ 1 16, Event.realloc 1 ⟨8, 8⟩ 32 2 32,
      Event.dealloc 2 ⟨32, 8⟩]
     (by decide) (by decide) (by decide)).1⟩

/-- Counterexample to claim C7 as stated: `underflowTrace` is a valid
(precondition-respecting) sequence from the initial counter value 0, yet
its final `dealloc` subtracts a usable size of 128 from a counter
holding 16 — the subtraction exceeds the counter's current value and
the unsigned counter wraps to `2 ^ 64 - 112`.  The in-flight in-place
`realloc` (same pointer, usable size 16 → 128) is what desynchronizes
the counter. -/
theorem counter_underflow_cex :
    validFrom SizeAllocator.new underflowTrace = true ∧
    underflowFree SizeAllocator.new underflowTrace = false ∧
    (run SizeAllocator.new underflowTrace).counter = W - 112 := by
  refine ⟨by decide, by decide, by decide⟩

/-! ### Per-call theorems -/

/-- Claim C1: for every `alloc` or `alloc_zeroed` call in which the
delegate returns a non-null pointer, the call returns that pointer
unmodified and increases the counter by exactly the usable size of the
returned block, exactly once; and that usable size is at least the
layout's requested size.  (`s.counter + u < W` keeps the `usize`
`fetch_add` from wrapping, matching the spec's machine-word counter.) -/
theorem alloc_success_tracks_usable (s : State) (layout : Layout) (p u : Nat)
    (hp : p ≠ 0) (hreq : layout.size ≤ u) (hw : s.counter + u < W) :
    (SizeAllocator.alloc s layout p u).2 = p ∧
    (SizeAllocator.alloc s layout p u).1.counter
      = s.counter + allocating_size (SizeAllocator.alloc s layout p u).1.heap p ∧
    layout.size ≤ allocating_size (SizeAllocator.alloc s layout p u).1.heap p ∧
    (SizeAllocator.alloc_zeroed s layout p u).2 = p ∧
    (SizeAllocator.alloc_zeroed s layout p u).1.counter
      = s.counter + allocating_size (SizeAllocator.alloc_zeroed s layout p u).1.heap p ∧
    layout.size ≤ allocating_size (SizeAllocator.alloc_zeroed s layout p u).1.heap p := by
  have hheap : (SizeAllocator.alloc s layout p u).1.heap = s.heap.insert p u := by
    simp [SizeAllocator.alloc, delegateAlloc, hp]
  have hcnt : (SizeAllocator.alloc s layout p u).1.counter = fetchAdd s.counter u := by
    simp [SizeAllocator.alloc, delegateAlloc, hp, allocating_size_insert _ _ _ hp]
  have hret : (SizeAllocator.alloc s layout p u).2 = p := by
    simp [SizeAllocator.alloc, hp]
  have hheapz : (SizeAllocator.alloc_zeroed s layout p u).1.heap = s.heap.insert p u := by
    simp [SizeAllocator.alloc_zeroed, delegateAllocZeroed, hp]
  have hcntz : (SizeAllocator.alloc_zeroed s layout p u).1.counter
      = fetchAdd s.counter u := by
    simp [SizeAllocator.alloc_zeroed, delegateAllocZeroed, hp,
      allocating_size_insert _ _ _ hp]
  have hretz : (SizeAllocator.alloc_zeroed s layout p u).2 = p := by
    simp [SizeAllocator.alloc_zeroed, hp]
  refine ⟨hret, ?_, ?_, hretz, ?_, ?_⟩
  · rw [hcnt, hheap, allocating_size_insert _ _ _ hp, fetchAdd_eq_add _ _ hw]
  · rw [hheap, allocating_size_insert _ _ _ hp]
    exact hreq
  · rw [hcntz, hheapz, allocating_size_insert _ _ _ hp, fetchAdd_eq_add _ _ hw]
  · rw [hheapz, allocating_size_insert _ _ _ hp]
    exact hreq

/-- Witness for C1: allocating with requested size 8 and usable size 16
from counter 0 returns the pointer and sets the counter to 16. -/
theorem alloc_success_tracks_usable_witness :
    (1 : Nat) ≠ 0 ∧ (8 : Nat) ≤ 16 ∧ 0 + 16 < W ∧
    (SizeAllocator.alloc ⟨0, ⟨[]⟩⟩ ⟨8, 8⟩ 1 16).2 = 1 ∧
    (SizeAllocator.alloc ⟨0, ⟨[]⟩⟩ ⟨8, 8⟩ 1 16).1.counter
      = 0 + allocating_size (SizeAllocator.alloc ⟨0, ⟨[]⟩⟩ ⟨8, 8⟩ 1 16).1.heap 1 :=
  ⟨by decide, by decide, by decide,
   (alloc_success_tracks_usable ⟨0, ⟨[]⟩⟩ ⟨8, 8⟩ 1 16 (by decide) (by decide)
      (by decide)).1,
   (alloc_success_tracks_usable ⟨0, ⟨[]⟩⟩ ⟨8, 8⟩ 1 16 (by decide) (by decide)
      (by decide)).2.1⟩

/-- Claim C2: `dealloc` on a live, non-null block queries the usable
size of the block before freeing it, subtracts exactly that amount from
the counter, and then delegates the free (removing the block from the
delegate's heap).  `dealloc` is a total function with no return value
and no failure path. -/
theorem dealloc_subtracts_usable (s : State) (p : Nat) (layout : Layout)
    (hp : p ≠ 0) (hlive : s.heap.isLive p = true)
    (hle : allocating_size s.heap p ≤ s.counter) (hc : s.counter < W) :
    (SizeAllocator.dealloc s p layout).counter
      = s.counter - allocating_size s.heap p ∧
    (SizeAllocator.dealloc s p layout).heap = s.heap.remove p := by
  constructor
  · show fetchSub s.counter (allocating_size s.heap p) = _
    exact fetchSub_eq_sub _ _ hle hc
  · rfl

/-- Witness for C2: freeing the live block 1 of usable size 16 from
counter 20 leaves counter 4 and removes the block. -/
theorem dealloc_subtracts_usable_witness :
    allocating_size (Heap.mk [(1, 16)]) 1 ≤ 20 ∧
    (SizeAllocator.dealloc ⟨20, ⟨[(1, 16)]⟩⟩ 1 ⟨8, 8⟩).counter
      = 20 - allocating_size (Heap.mk [(1, 16)]) 1 ∧
    (SizeAllocator.dealloc ⟨20, ⟨[(1, 16)]⟩⟩ 1 ⟨8, 8⟩).heap
      = (Heap.mk [(1, 16)]).remove 1 :=
  ⟨by decide,
   (dealloc_subtracts_usable ⟨20, ⟨[(1, 16)]⟩⟩ 1 ⟨8, 8⟩ (by decide) (by decide)
      (by decide) (by decide)).1,
   (dealloc_subtracts_usable ⟨20, ⟨[(1, 16)]⟩⟩ 1 ⟨8, 8⟩ (by decide) (by decide)
      (by decide) (by decide)).2⟩

/-- Claim C3: `realloc` on a valid live block, when the delegate returns
a non-null pointer different from the input, captures the old usable
size before delegating, adjusts the counter by exactly the signed
difference (new usable size − old usable size), and returns the
delegate's pointer unmodified.  The bound hypotheses keep the `usize`
counter from wrapping. -/
theorem realloc_moved_signed_adjust (s : State) (p : Nat) (layout : Layout)
    (n p' u' : Nat) (hpp : p' ≠ p) (hp0 : p' ≠ 0)
    (hlive : s.heap.isLive p = true)
    (hw1 : s.counter + u' < W)
    (hw2 : allocating_size s.heap p ≤ s.counter + u') :
    (SizeAllocator.realloc s p layout n p' u').2 = p' ∧
    allocating_size (SizeAllocator.realloc s p layout n p' u').1.heap p' = u' ∧
    ((SizeAllocator.realloc s p layout n p' u').1.counter : Int)
      = (s.counter : Int) + (u' : Int) - (allocating_size s.heap p : Int) := by
  have hcond : p' ≠ p ∧ p' ≠ 0 := ⟨hpp, hp0⟩
  have hd : delegateRealloc s.heap p p' u' = (s.heap.remove p).insert p' u' := by
    simp [delegateRealloc, hp0]
  have hnew : allocating_size ((s.heap.remove p).insert p' u') p' = u' :=
    allocating_size_insert _ _ _ hp0
  have hr : SizeAllocator.realloc s p layout n p' u'
      = if allocating_size s.heap p < u'
        then (⟨fetchAdd s.counter (u' - allocating_size s.heap p),
               (s.heap.remove p).insert p' u'⟩, p')
        else (⟨fetchSub s.counter (allocating_size s.heap p - u'),
               (s.heap.remove p).insert p' u'⟩, p') := by
    simp only [SizeAllocator.realloc, hd, if_pos hcond, hnew]
  rw [hr]
  by_cases hvu : allocating_size s.heap p < u'
  · rw [if_pos hvu]
    refine ⟨rfl, hnew, ?_⟩
    show ((fetchAdd s.counter (u' - allocating_size s.heap p) : Nat) : Int) = _
    rw [fetchAdd_eq_add _ _ (by omega)]
    omega
  · rw [if_neg hvu]
    refine ⟨rfl, hnew, ?_⟩
    show ((fetchSub s.counter (allocating_size s.heap p - u') : Nat) : Int) = _
    rw [fetchSub_eq_sub _ _ (by omega) (by omega)]
    omega

/-- Witness for C3: moving block 1 (usable 16) to fresh block 2 (usable
32) from counter 16 yields counter 16 + 32 − 16 = 32 and returns 2. -/
theorem realloc_moved_signed_adjust_witness :
    (SizeAllocator.realloc ⟨16, ⟨[(1, 16)]⟩⟩ 1 ⟨8, 8⟩ 32 2 32).2 = 2 ∧
    ((SizeAllocator.realloc ⟨16, ⟨[(1, 16)]⟩⟩ 1 ⟨8, 8⟩ 32 2 32).1.counter : Int)
      = (16 : Int) + (32 : Int) - (allocating_size (Heap.mk [(1, 16)]) 1 : Int) :=
  ⟨(realloc_moved_signed_adjust ⟨16, ⟨[(1, 16)]⟩⟩ 1 ⟨8, 8⟩ 32 2 32 (by decide)
      (by decide) (by decide) (by decide) (by decide)).1,
   (realloc_moved_signed_adjust ⟨16, ⟨[(1, 16)]⟩⟩ 1 ⟨8, 8⟩ 32 2 32 (by decide)
      (by decide) (by decide) (by decide) (by decide)).2.2⟩

/-- Claim C4: `realloc` leaves the counter unchanged whenever the
delegate returns the same pointer as the input (in-place resize) or
returns null (failure); the decision is the pointer-identity test of
`src/lib.rs` line 81, so this holds for every usable size `u'` the
in-place resize may have produced, even one different from the old
usable size. -/
theorem realloc_inplace_or_null_keeps_counter (s : State) (p : Nat) (layout : Layout)
    (n p' u' : Nat) (h : p' = p ∨ p' = 0) :
    (SizeAllocator.realloc s p layout n p' u').1.counter = s.counter ∧
    (SizeAllocator.realloc s p layout n p' u').2 = p' := by
  have hcond : ¬ (p' ≠ p ∧ p' ≠ 0) := by
    rcases h with h | h
    · exact fun hc => hc.1 h
    · exact fun hc => hc.2 h
  have hr : SizeAllocator.realloc s p layout n p' u'
      = (⟨s.counter, delegateRealloc s.heap p p' u'⟩, p') := by
    simp only [SizeAllocator.realloc, if_neg hcond]
  rw [hr]
  exact ⟨rfl, rfl⟩

/-- Witness for C4: an in-place resize of block 1 that changes its
usable size from 16 to 64 leaves the counter at 100 (even though the
delegate's heap now records usable size 64). -/
theorem realloc_inplace_or_null_keeps_counter_witness :
    (SizeAllocator.realloc ⟨100, ⟨[(1, 16)]⟩⟩ 1 ⟨8, 8⟩ 50 1 64).1.counter = 100 ∧
    (SizeAllocator.realloc ⟨100, ⟨[(1, 16)]⟩⟩ 1 ⟨8, 8⟩ 50 1 64).2 = 1 :=
  realloc_inplace_or_null_keeps_counter ⟨100, ⟨[(1, 16)]⟩⟩ 1 ⟨8, 8⟩ 50 1 64
    (Or.inl rfl)

/-- Claim C5: when the delegate allocator fails (returns null), `alloc`,
`alloc_zeroed` and `realloc` all return null to the caller unchanged and
leave the entire state — counter and heap — untouched; there is no retry
and no fallback (each operation performs at most the one delegate call
visible here). -/
theorem delegate_failure_propagates (s : State) (layout : Layout) (u p n u' : Nat) :
    (SizeAllocator.alloc s layout 0 u).2 = 0 ∧
    (SizeAllocator.alloc s layout 0 u).1 = s ∧
    (SizeAllocator.alloc_zeroed s layout 0 u).2 = 0 ∧
    (SizeAllocator.alloc_zeroed s layout 0 u).1 = s ∧
    (SizeAllocator.realloc s p layout n 0 u').2 = 0 ∧
    (SizeAllocator.realloc s p layout n 0 u').1 = s := by
  have hcond : ¬ ((0 : Nat) ≠ p ∧ (0 : Nat) ≠ 0) := fun hc => hc.2 rfl
  refine ⟨rfl, rfl, rfl, rfl, ?_, ?_⟩
  · simp [SizeAllocator.realloc, if_neg hcond, delegateRealloc]
  · simp [SizeAllocator.realloc, if_neg hcond, delegateRealloc]

/-- Claim C8: the usable-size query `allocating_size`, given the null
pointer, returns 0 (the documented contract of the underlying
`malloc_usable_size`; the release build performs no null check of its
own). -/
theorem allocating_size_null (h : Heap) : allocating_size h 0 = 0 := rfl

/-- Claim C9: the read accessor (modelled from the spec, absent from
`src/`) exposes the current value of the counter as a plain load with no
side effect on the state. -/
theorem readCounter_plain_load (s : State) :
    (SizeAllocator.readCounter s).2 = s.counter ∧
    (SizeAllocator.readCounter s).1 = s :=
  ⟨rfl, rfl⟩

/-- Claim C10: `realloc`, when the delegate returns a non-null pointer
different from the input whose usable size equals the old usable size,
leaves the counter unchanged — control reaches the else-branch of
`src/lib.rs` line 88 and subtracts `old_size - new_size = 0`. -/
theorem realloc_moved_equal_usable_keeps_counter (s : State) (p : Nat)
    (layout : Layout) (n p' u' : Nat) (hpp : p' ≠ p) (hp0 : p' ≠ 0)
    (hueq : u' = allocating_size s.heap p) (hc : s.counter < W) :
    (SizeAllocator.realloc s p layout n p' u').1.counter = s.counter := by
  subst hueq
  have hcond : p' ≠ p ∧ p' ≠ 0 := ⟨hpp, hp0⟩
  have hd : delegateRealloc s.heap p p' (allocating_size s.heap p)
      = (s.heap.remove p).insert p' (allocating_size s.heap p) := by
    simp [delegateRealloc, hp0]
  have hnew : allocating_size ((s.heap.remove p).insert p' (allocating_size s.heap p)) p'
      = allocating_size s.heap p :=
    allocating_size_insert _ _ _ hp0
  simp only [SizeAllocator.realloc, hd, if_pos hcond, hnew]
  rw [if_neg (lt_irrefl _)]
  show fetchSub s.counter (allocating_size s.heap p - allocating_size s.heap p)
      = s.counter
  rw [Nat.sub_self]
  exact fetchSub_eq_sub _ _ (Nat.zero_le _) hc

/-- Witness for C10: moving block 1 (usable 16) to fresh block 2 with
the same usable size 16 leaves the counter at 16. -/
theorem realloc_moved_equal_usable_keeps_counter_witness :
    (SizeAllocator.realloc ⟨16, ⟨[(1, 16)]⟩⟩ 1 ⟨8, 8⟩ 16 2 16).1.counter = 16 :=
  realloc_moved_equal_usable_keeps_counter ⟨16, ⟨[(1, 16)]⟩⟩ 1 ⟨8, 8⟩ 16 2 16
    (by decide) (by decide) (by decide) (by decide)
